import Mathlib

/-! Contract ledger and confirmation engine of `solar`.

A shallow embedding of `src/contractsRepo.go`: the deployment records, the
ledger map of the contracts repository, and the operations `Exists`, `Set`,
`Confirm`, `UnconfirmedContracts`, `SortedContracts`, `Commit`,
`confirmContract` and `ConfirmAll`.

Conventions of the embedding.

* A `*DeployedContract` is an address (`Ptr`) into a heap of records, so that
  two ledger entries, or the snapshot and the ledger, may share one record.
  Pointers are non-nil and the map is allocated: Go panics on the first
  dereference of a nil record and on a write to a nil map.
* The Go map `DeployedContracts` is an association list with distinct keys
  (`NodupKeys`).  The order of the list stands for the order in which a
  `range` loop visits the map, which Go leaves unspecified: two lists that are
  permutations of each other are two visits of the same map.
* Everything outside the process (the RPC configuration and node, the random
  source, the file system) is an oracle in `Env`; what the code does to the
  outside (RPC calls, sleeps, reporter events, log lines, commits) is appended
  to logs in `State`.
* The retry loop of `confirmContract` has no bound in the source, so the
  embedding takes a number of iterations (`fuel`) and answers `Run.running`
  when the loop is still running after that many.  `ConfirmAll` gives that
  many iterations to each record.
-/

namespace Solar

/-! ## Data model -/

/-- Go `Bytes`: a byte string. -/
abbrev Bytes := List Nat

/-- Modelled from the spec: the embedded struct `CompiledContract` is declared
outside `src/`; the spec calls it an "embedded description of the compiled
artifact ... opaque to this core, carried through unchanged". -/
structure CompiledContract where
  artifact : String
deriving DecidableEq, Repr

/-- Go `time.Time`, as far as the code reads it: whole seconds since the epoch
and the nanoseconds within that second (`nsec < 10^9`). -/
structure Time where
  sec : Int
  nsec : Nat
deriving DecidableEq, Repr

/-- Go `Time.Unix()`: the whole seconds since the epoch. -/
def Time.Unix (t : Time) : Int := t.sec

/-- Go `Time.After(u)`: `t` is a later instant than `u`. -/
def Time.After (t u : Time) : Bool :=
  decide (u.sec < t.sec) || (decide (t.sec = u.sec) && decide (u.nsec < t.nsec))

/-- Go `type DeployedContract struct`. -/
structure DeployedContract where
  Name : String
  DeployName : String
  Address : Bytes
  TransactionID : Bytes
  CompiledContract : CompiledContract
  CreatedAt : Time
  Confirmed : Bool
deriving DecidableEq, Repr

/-- Go `error` value that is not nil.  The code only tests whether its dynamic
type is `*jsonRPCError`; the message is carried along. -/
structure GoError where
  isJsonRPCError : Bool
  msg : String
deriving DecidableEq, Repr

/-- Events submitted to the reporter by `ConfirmAll`. -/
inductive Event where
  | eventProgress (info : String)
  | eventProgressEnd (info : String)
deriving DecidableEq, Repr

/-- Non-nil `*DeployedContract`. -/
abbrev Ptr := Nat

/-- Memory holding the records that pointers refer to. -/
abbrev Heap := Ptr → DeployedContract

/-- Go `type DeployedContracts map[string]*DeployedContract`. -/
abbrev DeployedContracts := List (String × Ptr)

/-- Map invariant: a Go map holds at most one entry for a key. -/
def NodupKeys (m : DeployedContracts) : Prop := (m.map Prod.fst).Nodup

instance (m : DeployedContracts) : Decidable (NodupKeys m) :=
  inferInstanceAs (Decidable (m.map Prod.fst).Nodup)

/-- Go `type contractsRepository struct`. -/
structure contractsRepository where
  filepath : String
  contracts : DeployedContracts
deriving DecidableEq, Repr

/-- One `Commit`: the path written and the ledger as encoded at that moment
(each name with the record its pointer refers to). -/
structure CommitCall where
  path : String
  ledger : List (String × DeployedContract)
deriving DecidableEq, Repr

/-- Process state: the repository, the heap of records, and the trace of what
the code has done to the outside so far. -/
structure State where
  repo : contractsRepository
  heap : Heap
  rpcCalls : List (String × Bytes)
  randCalls : Nat
  sleeps : List Nat
  events : List Event
  logged : List GoError
  commits : List CommitCall

/-- Outside world.  `rpcConfigured` says whether `solar.RPC()` hands out a
client: in `cli.go` it ends the process (`log.Fatalln`, `log.Fatalf`) when the
RPC url is empty or does not parse.  `rpcCall n method addr` is the error result
of the `n`-th `rpc.Call` of the process (`none` is Go `nil`), `randIntn n` the
raw value behind the `n`-th `rand.Intn`, `commit n` the error result of the
`n`-th `Commit`. -/
structure Env where
  rpcConfigured : Bool
  rpcCall : Nat → String → Bytes → Option GoError
  randIntn : Nat → Nat
  commit : Nat → Option GoError

/-- Outcome of running code whose loop has no bound: still `running` after the
given number of iterations, `exited` when `log.Fatal` ended the process, or
`returned` with a value. -/
inductive Run (α : Type) where
  | running (s : State)
  | exited (s : State)
  | returned (a : α) (s : State)

/-- State reached by a run, whether it returned or not. -/
def Run.state {α : Type} : Run α → State
  | .running s => s
  | .exited s => s
  | .returned _ s => s

/-- Whether the run returned. -/
def Run.isReturned {α : Type} : Run α → Bool
  | .running _ => false
  | .exited _ => false
  | .returned _ _ => true

/-- Value returned by a run, if it returned. -/
def Run.value {α : Type} : Run α → Option α
  | .running _ => none
  | .exited _ => none
  | .returned a _ => some a

/-! ## Ledger store -/

/-- Go map read `m[name]` with the comma-ok form. -/
def mapGet (m : DeployedContracts) (name : String) : Option Ptr :=
  match m with
  | [] => none
  | (k, v) :: rest => if k = name then some v else mapGet rest name

/-- Go map write `m[name] = c`: replaces the entry of `name`, or adds one. -/
def mapSet (m : DeployedContracts) (name : String) (c : Ptr) : DeployedContracts :=
  match m with
  | [] => [(name, c)]
  | (k, v) :: rest => if k = name then (name, c) :: rest else (k, v) :: mapSet rest name c

/-- Go `UnconfirmedContracts`: the pointers of the records with
`Confirmed = false`, in the order the map is visited. -/
def UnconfirmedContracts (s : State) : List Ptr :=
  (s.repo.contracts.map Prod.snd).filter (fun c => !(s.heap c).Confirmed)

/-- The `less` closure of `SortedContracts`: compares the whole seconds. -/
def lessCreatedAt (heap : Heap) (c1 c2 : Ptr) : Bool :=
  decide ((heap c1).CreatedAt.Unix < (heap c2).CreatedAt.Unix)

/-- Go `insertionSortLessFunc` of package `sort`, which `sort.Slice` runs on a
slice of at most 12 elements: each element in turn is swapped leftwards while
`less` puts it before its left neighbour.  `insertLeft less x pre` takes the
sorted prefix in reverse (nearest neighbour first). -/
def insertLeft {α : Type} (less : α → α → Bool) (x : α) : List α → List α
  | [] => [x]
  | y :: pre => if less x y then y :: insertLeft less x pre else x :: y :: pre

/-- Go `insertionSortLessFunc`: the outer loop. -/
def insertionSort {α : Type} (less : α → α → Bool) (l : List α) : List α :=
  (l.foldl (fun pre x => insertLeft less x pre) []).reverse

/-- Go `SortedContracts`, over the sorting routine `sortSlice` standing for
`sort.Slice` (Go's standard library, not part of the repository). -/
def SortedContracts (sortSlice : (Ptr → Ptr → Bool) → List Ptr → List Ptr)
    (s : State) : List Ptr :=
  sortSlice (lessCreatedAt s.heap) (s.repo.contracts.map Prod.snd)

/-- What Go documents of `sort.Slice`, for a `less` that compares integer keys:
the result holds the elements of the slice, and no element comes before one
with a smaller key.  Nothing is said of elements with equal keys ("The sort is
not guaranteed to be stable"). -/
def SortSliceSpec (sortSlice : (Ptr → Ptr → Bool) → List Ptr → List Ptr) : Prop :=
  ∀ (key : Ptr → Int) (l : List Ptr),
    (sortSlice (fun a b => decide (key a < key b)) l).Perm l ∧
    (sortSlice (fun a b => decide (key a < key b)) l).Pairwise (fun a b => key a ≤ key b)

/-- Order by creation time: no record is directly followed by one whose
`CreatedAt` is an earlier instant. -/
def nonDecreasingCreatedAt (heap : Heap) : List Ptr → Bool
  | a :: b :: rest =>
    !(heap a).CreatedAt.After (heap b).CreatedAt && nonDecreasingCreatedAt heap (b :: rest)
  | _ => true

/-- Go `Exists`. -/
def Exists (s : State) (name : String) : Bool :=
  (mapGet s.repo.contracts name).isSome

/-- The assignment `c.Confirmed = true` through the pointer `c`. -/
def markConfirmed (s : State) (c : Ptr) : State :=
  { s with heap := Function.update s.heap c { s.heap c with Confirmed := true } }

/-- Go `Confirm`: the returned error (`none` is `nil`) and the state after. -/
def Confirm (s : State) (name : String) : Option GoError × State :=
  match mapGet s.repo.contracts name with
  | none => (some ⟨false, "Cannot unconfirm unknown contract " ++ name⟩, s)
  | some c => (none, markConfirmed s c)

/-- Go `Set`. -/
def Set (s : State) (name : String) (c : Ptr) : Option GoError × State :=
  (none, { s with repo := { s.repo with contracts := mapSet s.repo.contracts name c } })

/-- Go `Commit`: one attempt to write the whole ledger to `filepath`; the file
system decides whether it fails. -/
def Commit (env : Env) (s : State) : Option GoError × State :=
  (env.commit s.commits.length,
   { s with commits := s.commits ++
      [⟨s.repo.filepath, s.repo.contracts.map (fun e => (e.1, s.heap e.2))⟩] })

/-! ## Confirmation engine -/

/-- Go `reporter.Submit`. -/
def submit (e : Event) (s : State) : State :=
  { s with events := s.events ++ [e] }

/-- Go `fmt.Sprintf("(%d/%d) Confirming contracts", i, total)`. -/
def progressInfo (i total : Nat) : String :=
  "(" ++ toString i ++ "/" ++ toString total ++ ") Confirming contracts"

/-- The closure `updateProgress` of `ConfirmAll`. -/
def updateProgress (total i : Nat) (s : State) : State :=
  let s1 := submit (.eventProgress (progressInfo i total)) s
  if i = total then submit (.eventProgressEnd "🚀  All contracts confirmed") s1 else s1

/-- The call `rpc.Call(&result, "getaccountinfo", c.Address)` enters the trace. -/
def rpcCalled (s : State) (c : Ptr) : State :=
  { s with rpcCalls := s.rpcCalls ++ [("getaccountinfo", (s.heap c).Address)] }

/-- The lines `nudge := rand.Intn(500)` and
`time.Sleep(1*time.Second + time.Duration(nudge)*time.Millisecond)`; the sleep
enters the trace in milliseconds. -/
def sleepWithNudge (env : Env) (s : State) : State :=
  { s with
    randCalls := s.randCalls + 1
    sleeps := s.sleeps ++ [1000 + env.randIntn s.randCalls % 500] }

/-- Go type assertion `err.(*jsonRPCError)` in its comma-ok form: the asserted
value, of type `*jsonRPCError` (the nil pointer, `none`, when the assertion
fails), and `ok`. -/
def assertJsonRPCError (err : Option GoError) : Option GoError × Bool :=
  match err with
  | some e => if e.isJsonRPCError then (some e, true) else (none, false)
  | none => (none, false)

/-- The `for` loop of Go `confirmContract`, run for at most `fuel` iterations.
In `if err, ok := err.(*jsonRPCError); ok { ... } else if err != nil { ... }`
the `err` declared by the `if` is in scope up to the end of the `if` statement,
its `else` branch included, so that `err != nil` tests the asserted value and
not the result of `rpc.Call`. -/
def confirmContractLoop (env : Env) : Nat → State → Ptr → Run (Option GoError)
  | 0, s, _ => .running s
  | fuel + 1, s, c =>
    match assertJsonRPCError
        (env.rpcCall s.rpcCalls.length "getaccountinfo" (s.heap c).Address) with
    | (_, true) => confirmContractLoop env fuel (sleepWithNudge env (rpcCalled s c)) c
    | (some err, false) => .returned (some err) (rpcCalled s c)
    | (none, false) => .returned none (markConfirmed (rpcCalled s c) c)

/-- Go `confirmContract`: `rpc := solar.RPC()`, then the loop, run for at most
`fuel` iterations. -/
def confirmContract (env : Env) (fuel : Nat) (s : State) (c : Ptr) : Run (Option GoError) :=
  if env.rpcConfigured then confirmContractLoop env fuel s c else .exited s

/-- The line `log.Println("err", err)` under `if err != nil`. -/
def logError (err : Option GoError) (s : State) : State :=
  match err with
  | some e => { s with logged := s.logged ++ [e] }
  | none => s

/-- The `for i, contract := range contracts` loop of `ConfirmAll`, from index
`i` on; every `confirmContract` may take up to `fuel` iterations. -/
def confirmLoop (env : Env) (fuel total : Nat) : Nat → List Ptr → State → Run Unit
  | _, [], s => .returned () s
  | i, c :: cs, s =>
    match confirmContract env fuel s c with
    | .running s1 => .running s1
    | .exited s1 => .exited s1
    | .returned err s1 =>
      confirmLoop env fuel total (i + 1) cs (updateProgress total (i + 1) (logError err s1))

/-- Go `ConfirmAll`. -/
def ConfirmAll (env : Env) (fuel : Nat) (s : State) : Run (Option GoError) :=
  let contracts := UnconfirmedContracts s
  let total := contracts.length
  match confirmLoop env fuel total 0 contracts (updateProgress total 0 s) with
  | .running s1 => .running s1
  | .exited s1 => .exited s1
  | .returned _ s1 =>
    let r := Commit env s1
    .returned r.1 r.2

/-! ## Notions used to state the facts -/

/-- Relation between the heap before and after engine code: a record either
keeps every field or differs by `Confirmed` having become `true`. -/
def HeapStep (h h2 : Heap) : Prop :=
  ∀ p, h2 p = h p ∨ h2 p = { h p with Confirmed := true }

/-- The progress event of index `i` out of `total`. -/
def progressEvent (total i : Nat) : Event :=
  .eventProgress (progressInfo i total)

/-- The completion event. -/
def progressEnd : Event :=
  .eventProgressEnd "🚀  All contracts confirmed"

/-- The first `k` responses to the calls that `confirmContract`, started in
state `s` on the record `c`, makes are all the transient error
(`*jsonRPCError`). -/
def TransientFirst (env : Env) (s : State) (c : Ptr) (k : Nat) : Prop :=
  ∀ j, j < k → ∃ e,
    env.rpcCall (s.rpcCalls.length + j) "getaccountinfo" (s.heap c).Address = some e ∧
    e.isJsonRPCError = true

/-- State after `k` iterations of the loop of `confirmContract` that each met
the transient error: `k` calls and `k` sleeps. -/
def retried (env : Env) (c : Ptr) : Nat → State → State
  | 0, s => s
  | k + 1, s => retried env c k (sleepWithNudge env (rpcCalled s c))

/-- Bound on the waiting: from every call on, one of the next `bound` responses
is not the transient error. -/
def TransientBounded (env : Env) (bound : Nat) : Prop :=
  ∀ n addr, ∃ k, k < bound ∧
    ∀ e, env.rpcCall (n + k) "getaccountinfo" addr = some e → e.isJsonRPCError = false

/-! ## Sequences of operations -/

/-- The `Confirmed` flag of the record stored under `name` (`false` when the
ledger has no such name). -/
def confirmedAt (s : State) (name : String) : Bool :=
  match mapGet s.repo.contracts name with
  | some c => (s.heap c).Confirmed
  | none => false

/-- The mutating operations of the repository. -/
inductive Op where
  | set (name : String) (c : Ptr)
  | confirm (name : String)
  | confirmContract (c : Ptr)
  | confirmAll

/-- State after one operation; for the two operations with a retry loop, the
state reached after at most `fuel` iterations per record. -/
def Op.run (env : Env) (fuel : Nat) (s : State) : Op → State
  | .set name c => (Solar.Set s name c).2
  | .confirm name => (Solar.Confirm s name).2
  | .confirmContract c => (Solar.confirmContract env fuel s c).state
  | .confirmAll => (Solar.ConfirmAll env fuel s).state

/-- State after a sequence of operations. -/
def runOps (env : Env) (fuel : Nat) : List Op → State → State
  | [], s => s
  | op :: ops, s => runOps env fuel ops (op.run env fuel s)

/-- The operation, run in state `s`, is not a `Set` that stores under `name` a
record that is unconfirmed. -/
def Op.keeps (name : String) (s : State) : Op → Bool
  | .set n c => decide (n ≠ name) || (s.heap c).Confirmed
  | _ => true

/-- Every operation of the sequence, in the state it runs in, satisfies
`Op.keeps name`. -/
def keepsAll (env : Env) (fuel : Nat) (name : String) : List Op → State → Bool
  | [], _ => true
  | op :: ops, s => op.keeps name s && keepsAll env fuel name ops (op.run env fuel s)

/-! ## A ledger to run the code on -/

/-- A record with the given name, address byte, creation time and flag. -/
def exRecord (name : String) (addr : Nat) (sec : Int) (nsec : Nat) (confirmed : Bool) :
    DeployedContract :=
  { Name := name
    DeployName := name
    Address := [addr]
    TransactionID := [addr, addr]
    CompiledContract := ⟨"bin"⟩
    CreatedAt := ⟨sec, nsec⟩
    Confirmed := confirmed }

/-- Three records: `A` and `B` created within the same second (`A` 0.8 s after
`B`), `C` later; only `B` is confirmed. -/
def exHeap : Heap
  | 0 => exRecord "A" 10 100 900000000 false
  | 1 => exRecord "B" 11 100 100000000 true
  | 2 => exRecord "C" 12 250 0 false
  | _ => exRecord "" 0 0 0 false

/-- The ledger `A, B, C` over `exHeap`, visited in that order, nothing done yet. -/
def exState : State :=
  { repo := ⟨"solar.development.json", [("A", 0), ("B", 1), ("C", 2)]⟩
    heap := exHeap
    rpcCalls := []
    randCalls := 0
    sleeps := []
    events := []
    logged := []
    commits := [] }

/-- The same ledger as `exState`, visited in the order `B, A, C`. -/
def exStateOtherVisit : State :=
  { exState with repo := ⟨"solar.development.json", [("B", 1), ("A", 0), ("C", 2)]⟩ }

/-- The records of `exHeap` with `B` created one second later, so that no two
creation times fall in the same second. -/
def exHeapSpaced : Heap
  | 1 => exRecord "B" 11 101 100000000 true
  | p => exHeap p

/-- The ledger `A, B, C` over `exHeapSpaced`, visited in that order. -/
def exStateSpaced : State :=
  { exState with heap := exHeapSpaced }

/-- The same ledger as `exStateSpaced`, visited in the order `B, A, C`. -/
def exStateSpacedOtherVisit : State :=
  { exStateOtherVisit with heap := exHeapSpaced }

/-- A node whose first and third answers are the transient error, whose second
answer is another error, and which answers every later call with success;
commits succeed. -/
def exEnv : Env :=
  { rpcConfigured := true
    rpcCall := fun n _ _ =>
      match n with
      | 0 => some ⟨true, "not found"⟩
      | 1 => some ⟨false, "connection refused"⟩
      | 2 => some ⟨true, "not found"⟩
      | _ => none
    randIntn := fun n => 7 * n + 3
    commit := fun _ => none }

/-- A node that answers every call with the transient error. -/
def exEnvTransient : Env :=
  { exEnv with rpcCall := fun _ _ _ => some ⟨true, "not found"⟩ }

/-- A node that answers every call with an error that is not a
`*jsonRPCError`. -/
def exEnvRefused : Env :=
  { exEnv with rpcCall := fun _ _ _ => some ⟨false, "connection refused"⟩ }

/-- A node that answers every call with success. -/
def exEnvSuccess : Env :=
  { exEnv with rpcCall := fun _ _ _ => none }

/-! ## Facts on the ledger map -/

theorem mapGet_eq_none_iff (m : DeployedContracts) (name : String) :
    mapGet m name = none ↔ name ∉ m.map Prod.fst := by
  induction m with
  | nil => simp [mapGet]
  | cons e rest ih =>
    obtain ⟨k, v⟩ := e
    by_cases hk : k = name
    · simp [mapGet, hk]
    · have hk2 : ¬ name = k := fun h => hk h.symm
      simp [mapGet, hk, hk2, ih]

theorem mapGet_mapSet_same (m : DeployedContracts) (name : String) (c : Ptr) :
    mapGet (mapSet m name c) name = some c := by
  induction m with
  | nil => simp [mapSet, mapGet]
  | cons e rest ih =>
    obtain ⟨k, v⟩ := e
    by_cases hk : k = name
    · simp [mapSet, mapGet, hk]
    · simp [mapSet, mapGet, hk, ih]

theorem mapGet_mapSet_other (m : DeployedContracts) (name other : String) (c : Ptr)
    (h : other ≠ name) : mapGet (mapSet m name c) other = mapGet m other := by
  induction m with
  | nil => simp [mapSet, mapGet, h.symm]
  | cons e rest ih =>
    obtain ⟨k, v⟩ := e
    by_cases hk : k = name
    · have hk2 : ¬ k = other := fun h2 => h (h2.symm.trans hk)
      simp [mapSet, mapGet, hk, hk2, h.symm]
    · by_cases ho : k = other
      · subst ho
        simp [mapSet, mapGet, hk]
      · simp [mapSet, mapGet, hk, ho, ih]

theorem mem_keys_mapSet (m : DeployedContracts) (name k : String) (c : Ptr) :
    k ∈ (mapSet m name c).map Prod.fst ↔ k = name ∨ k ∈ m.map Prod.fst := by
  induction m with
  | nil => simp [mapSet]
  | cons e rest ih =>
    obtain ⟨k1, v⟩ := e
    by_cases hk : k1 = name
    · subst hk
      simp [mapSet]
    · simp only [mapSet, hk, if_false, List.map_cons, List.mem_cons, ih]
      tauto

theorem nodupKeys_mapSet (m : DeployedContracts) (name : String) (c : Ptr)
    (h : NodupKeys m) : NodupKeys (mapSet m name c) := by
  induction m with
  | nil => simp [mapSet, NodupKeys]
  | cons e rest ih =>
    obtain ⟨k, v⟩ := e
    have h2 : k ∉ rest.map Prod.fst ∧ NodupKeys rest := by
      simpa [NodupKeys] using h
    by_cases hk : k = name
    · subst hk
      simpa [mapSet, NodupKeys] using h
    · have h3 : k ∉ (mapSet rest name c).map Prod.fst := by
        rw [mem_keys_mapSet]
        exact fun h4 => h4.elim hk h2.1
      have h5 := ih h2.2
      simp only [mapSet, hk, if_false, NodupKeys, List.map_cons, List.nodup_cons]
      exact ⟨h3, h5⟩

/-! ## Facts on the confirmation engine -/

theorem HeapStep.refl (h : Heap) : HeapStep h h := fun _ => Or.inl rfl

theorem HeapStep.trans {h1 h2 h3 : Heap} (a : HeapStep h1 h2) (b : HeapStep h2 h3) :
    HeapStep h1 h3 := by
  intro p
  rcases a p with ha | ha <;> rcases b p with hb | hb
  · exact Or.inl (hb.trans ha)
  · exact Or.inr (by rw [hb, ha])
  · exact Or.inr (hb.trans ha)
  · exact Or.inr (by rw [hb, ha])

theorem HeapStep.update (h : Heap) (c : Ptr) :
    HeapStep h (Function.update h c { h c with Confirmed := true }) := by
  intro p
  by_cases hp : p = c
  · subst hp
    exact Or.inr (by simp)
  · exact Or.inl (by simp [Function.update, hp])

theorem HeapStep.address {h h2 : Heap} (a : HeapStep h h2) (p : Ptr) :
    (h2 p).Address = (h p).Address := by
  rcases a p with ha | ha <;> rw [ha]

theorem HeapStep.confirmed {h h2 : Heap} (a : HeapStep h h2) (p : Ptr)
    (hp : (h p).Confirmed = true) : h2 p = h p := by
  rcases a p with ha | ha
  · exact ha
  · rw [ha]
    cases hr : h p
    rw [hr] at hp
    simp only at hp
    simp [hp]

theorem HeapStep.otherFields {h h2 : Heap} (a : HeapStep h h2) (p : Ptr) :
    h2 p = { h p with Confirmed := (h2 p).Confirmed } := by
  rcases a p with ha | ha <;> rw [ha]

theorem assertJsonRPCError_snd (err : Option GoError) :
    (assertJsonRPCError err).2 = true ↔ ∃ e, err = some e ∧ e.isJsonRPCError = true := by
  cases err with
  | none => simp [assertJsonRPCError]
  | some e => by_cases he : e.isJsonRPCError = true <;> simp [assertJsonRPCError, he]

/-- One iteration of the loop of `confirmContract`: on a `*jsonRPCError` it
sleeps and goes on; on anything else, another error included, it marks the
record confirmed and returns nil. -/
theorem confirmContractLoop_succ (env : Env) (fuel : Nat) (s : State) (c : Ptr) :
    confirmContractLoop env (fuel + 1) s c
      = if (assertJsonRPCError
            (env.rpcCall s.rpcCalls.length "getaccountinfo" (s.heap c).Address)).2 = true
        then confirmContractLoop env fuel (sleepWithNudge env (rpcCalled s c)) c
        else .returned none (markConfirmed (rpcCalled s c) c) := by
  rw [confirmContractLoop]
  cases hr : env.rpcCall s.rpcCalls.length "getaccountinfo" (s.heap c).Address with
  | none => simp [assertJsonRPCError]
  | some e => by_cases he : e.isJsonRPCError = true <;> simp [assertJsonRPCError, he]

/-- What the loop of `confirmContract` leaves alone, returned or not. -/
theorem confirmContractLoop_frame (env : Env) (fuel : Nat) (s : State) (c : Ptr) :
    (confirmContractLoop env fuel s c).state.repo = s.repo ∧
    HeapStep s.heap (confirmContractLoop env fuel s c).state.heap ∧
    (confirmContractLoop env fuel s c).state.events = s.events ∧
    (confirmContractLoop env fuel s c).state.logged = s.logged ∧
    (confirmContractLoop env fuel s c).state.commits = s.commits := by
  induction fuel generalizing s with
  | zero => exact ⟨rfl, HeapStep.refl _, rfl, rfl, rfl⟩
  | succ n ih =>
    rw [confirmContractLoop_succ]
    split
    · exact ih (sleepWithNudge env (rpcCalled s c))
    · exact ⟨rfl, HeapStep.update _ _, rfl, rfl, rfl⟩

/-- The loop of `confirmContract` never returns an error. -/
theorem confirmContractLoop_returns_nil (env : Env) (fuel : Nat) (s : State) (c : Ptr) :
    (confirmContractLoop env fuel s c).value = none ∨
    (confirmContractLoop env fuel s c).value = some none := by
  induction fuel generalizing s with
  | zero => exact Or.inl rfl
  | succ n ih =>
    rw [confirmContractLoop_succ]
    split
    · exact ih _
    · exact Or.inr rfl

/-- More fuel does not change what a run of the loop of `confirmContract`
returned. -/
theorem confirmContractLoop_fuel_mono (env : Env) (fuel extra : Nat) (s s2 : State) (c : Ptr)
    (r : Option GoError) (h : confirmContractLoop env fuel s c = .returned r s2) :
    confirmContractLoop env (fuel + extra) s c = .returned r s2 := by
  induction fuel generalizing s with
  | zero => simp [confirmContractLoop] at h
  | succ n ih =>
    rw [Nat.add_right_comm, confirmContractLoop_succ]
    rw [confirmContractLoop_succ] at h
    split at h
    · rename_i ht
      rw [if_pos ht]
      exact ih _ h
    · rename_i ht
      rw [if_neg ht]
      exact h

theorem retried_fields (env : Env) (c : Ptr) (k : Nat) (s : State) :
    (retried env c k s).heap = s.heap ∧
    (retried env c k s).rpcCalls
      = s.rpcCalls ++ List.replicate k ("getaccountinfo", (s.heap c).Address) ∧
    (retried env c k s).sleeps.length = s.sleeps.length + k := by
  induction k generalizing s with
  | zero => simp [retried]
  | succ n ih =>
    obtain ⟨h1, h2, h3⟩ := ih (sleepWithNudge env (rpcCalled s c))
    refine ⟨h1, ?_, ?_⟩
    · rw [retried, h2]
      simp [sleepWithNudge, rpcCalled, List.replicate_succ]
    · rw [retried, h3]
      simp [sleepWithNudge, rpcCalled]
      omega

theorem TransientFirst.tail {env : Env} {s : State} {c : Ptr} {k : Nat}
    (h : TransientFirst env s c (k + 1)) :
    TransientFirst env (sleepWithNudge env (rpcCalled s c)) c k := by
  intro j hj
  obtain ⟨e, h1, h2⟩ := h (j + 1) (by omega)
  refine ⟨e, ?_, h2⟩
  have hl : (sleepWithNudge env (rpcCalled s c)).rpcCalls.length + j
      = s.rpcCalls.length + (j + 1) := by
    simp [sleepWithNudge, rpcCalled]
    omega
  rw [hl]
  exact h1

/-- While the responses are the transient error the loop goes on: `k` such
responses use up `k` iterations and lead to `retried env c k s`. -/
theorem confirmContractLoop_retried (env : Env) (c : Ptr) (k fuel : Nat) (s : State)
    (h : TransientFirst env s c k) :
    confirmContractLoop env (k + fuel) s c
      = confirmContractLoop env fuel (retried env c k s) c := by
  induction k generalizing s with
  | zero => simp [retried]
  | succ n ih =>
    have h0 := h 0 (by omega)
    simp only [Nat.add_zero] at h0
    rw [Nat.add_right_comm, confirmContractLoop_succ,
      if_pos ((assertJsonRPCError_snd _).2 h0)]
    exact ih _ h.tail

/-- One iteration always issues one call, whatever the response. -/
theorem confirmContractLoop_one_call (env : Env) (s : State) (c : Ptr) :
    (confirmContractLoop env 1 s c).state.rpcCalls
      = s.rpcCalls ++ [("getaccountinfo", (s.heap c).Address)] := by
  rw [confirmContractLoop_succ]
  split <;> rfl

/-- A run of the loop of `confirmContract` that returned made at least one
call, all of them `getaccountinfo` on the address of the record. -/
theorem confirmContractLoop_returned_calls (env : Env) (fuel : Nat) (s s2 : State) (c : Ptr)
    (r : Option GoError) (h : confirmContractLoop env fuel s c = .returned r s2) :
    ∃ k, 1 ≤ k ∧
      s2.rpcCalls = s.rpcCalls ++ List.replicate k ("getaccountinfo", (s.heap c).Address) := by
  induction fuel generalizing s with
  | zero => simp [confirmContractLoop] at h
  | succ n ih =>
    rw [confirmContractLoop_succ] at h
    split at h
    · obtain ⟨k, _, hk⟩ := ih _ h
      refine ⟨k + 1, by omega, ?_⟩
      rw [hk]
      simp [sleepWithNudge, rpcCalled, List.replicate_succ]
    · simp only [Run.returned.injEq] at h
      exact ⟨1, le_refl 1, by rw [← h.2]; rfl⟩

/-- Under `TransientBounded env bound`, `bound` iterations are enough for the
loop of `confirmContract` to return. -/
theorem confirmContractLoop_returns (env : Env) (bound : Nat) (h : TransientBounded env bound)
    (s : State) (c : Ptr) : (confirmContractLoop env bound s c).isReturned = true := by
  have key : ∀ fuel (s : State), (∃ k, k < fuel ∧ ∀ e,
      env.rpcCall (s.rpcCalls.length + k) "getaccountinfo" (s.heap c).Address = some e →
        e.isJsonRPCError = false) → (confirmContractLoop env fuel s c).isReturned = true := by
    intro fuel
    induction fuel with
    | zero => intro s ⟨k, hk, _⟩; omega
    | succ n ih =>
      intro s ⟨k, hk, hresp⟩
      rw [confirmContractLoop_succ]
      split
      · rename_i ht
        obtain ⟨e, hr, he⟩ := (assertJsonRPCError_snd _).1 ht
        cases k with
        | zero =>
          have := hresp e (by simpa using hr)
          simp [he] at this
        | succ k2 =>
          apply ih
          refine ⟨k2, by omega, ?_⟩
          intro e2 he2
          apply hresp e2
          have hl : (sleepWithNudge env (rpcCalled s c)).rpcCalls.length + k2
              = s.rpcCalls.length + (k2 + 1) := by
            simp [sleepWithNudge, rpcCalled]
            omega
          rw [hl] at he2
          exact he2
      · rfl
  exact key bound s (h s.rpcCalls.length (s.heap c).Address)

/-- With a client at hand, `confirmContract` is its loop. -/
theorem confirmContract_configured (env : Env) (fuel : Nat) (s : State) (c : Ptr)
    (h : env.rpcConfigured = true) :
    confirmContract env fuel s c = confirmContractLoop env fuel s c := by
  simp [confirmContract, h]

/-- A run of `confirmContract` that returned had a client and is a run of the
loop. -/
theorem confirmContract_returned (env : Env) (fuel : Nat) (s s2 : State) (c : Ptr)
    (r : Option GoError) (h : confirmContract env fuel s c = .returned r s2) :
    confirmContractLoop env fuel s c = .returned r s2 := by
  unfold confirmContract at h
  by_cases hc : env.rpcConfigured = true
  · simpa [hc] using h
  · simp [hc] at h

/-- What `confirmContract` leaves alone, returned or not: the repository, the
reporter events, the log, the commits, and every field of every record but
`Confirmed`, which it only ever sets. -/
theorem confirmContract_frame (env : Env) (fuel : Nat) (s : State) (c : Ptr) :
    (confirmContract env fuel s c).state.repo = s.repo ∧
    HeapStep s.heap (confirmContract env fuel s c).state.heap ∧
    (confirmContract env fuel s c).state.events = s.events ∧
    (confirmContract env fuel s c).state.logged = s.logged ∧
    (confirmContract env fuel s c).state.commits = s.commits := by
  unfold confirmContract
  by_cases hc : env.rpcConfigured = true
  · simp only [hc, if_true]
    exact confirmContractLoop_frame env fuel s c
  · simp only [hc]
    exact ⟨rfl, HeapStep.refl _, rfl, rfl, rfl⟩

theorem updateProgress_fields (total i : Nat) (s : State) :
    (updateProgress total i s).repo = s.repo ∧
    (updateProgress total i s).heap = s.heap ∧
    (updateProgress total i s).rpcCalls = s.rpcCalls ∧
    (updateProgress total i s).commits = s.commits ∧
    (updateProgress total i s).events
      = s.events ++ progressEvent total i :: (if i = total then [progressEnd] else []) := by
  by_cases h : i = total <;> simp [updateProgress, submit, h, progressEvent, progressEnd]

theorem logError_fields (err : Option GoError) (s : State) :
    (logError err s).repo = s.repo ∧
    (logError err s).heap = s.heap ∧
    (logError err s).rpcCalls = s.rpcCalls ∧
    (logError err s).commits = s.commits ∧
    (logError err s).events = s.events := by
  cases err <;> exact ⟨rfl, rfl, rfl, rfl, rfl⟩

/-- State in which the loop of `ConfirmAll` goes on after the attempt on one
record returned `err` in state `s1`. -/
theorem afterAttempt_fields (total i : Nat) (err : Option GoError) (s1 : State) :
    (updateProgress total i (logError err s1)).repo = s1.repo ∧
    (updateProgress total i (logError err s1)).heap = s1.heap ∧
    (updateProgress total i (logError err s1)).rpcCalls = s1.rpcCalls ∧
    (updateProgress total i (logError err s1)).commits = s1.commits ∧
    (updateProgress total i (logError err s1)).events
      = s1.events ++ progressEvent total i :: (if i = total then [progressEnd] else []) := by
  obtain ⟨a1, a2, a3, a4, a5⟩ := updateProgress_fields total i (logError err s1)
  obtain ⟨b1, b2, b3, b4, b5⟩ := logError_fields err s1
  exact ⟨a1.trans b1, a2.trans b2, a3.trans b3, a4.trans b4, by rw [a5, b5]⟩

/-- What the loop of `ConfirmAll` leaves alone, returned or not. -/
theorem confirmLoop_frame (env : Env) (fuel total : Nat) (cs : List Ptr) (i : Nat)
    (s : State) :
    (confirmLoop env fuel total i cs s).state.repo = s.repo ∧
    HeapStep s.heap (confirmLoop env fuel total i cs s).state.heap ∧
    (confirmLoop env fuel total i cs s).state.commits = s.commits := by
  induction cs generalizing i s with
  | nil => exact ⟨rfl, HeapStep.refl _, rfl⟩
  | cons c cs ih =>
    have hf := confirmContract_frame env fuel s c
    unfold confirmLoop
    cases hcc : confirmContract env fuel s c with
    | running s1 =>
      rw [hcc] at hf
      exact ⟨hf.1, hf.2.1, hf.2.2.2.2⟩
    | exited s1 =>
      rw [hcc] at hf
      exact ⟨hf.1, hf.2.1, hf.2.2.2.2⟩
    | returned err s1 =>
      rw [hcc] at hf
      simp only [Run.state] at hf
      obtain ⟨a1, a2, _, a4, _⟩ := afterAttempt_fields total (i + 1) err s1
      obtain ⟨b1, b2, b3⟩ := ih (i + 1) (updateProgress total (i + 1) (logError err s1))
      simp only
      refine ⟨b1.trans (a1.trans hf.1), ?_, b3.trans (a4.trans hf.2.2.2.2)⟩
      rw [a2] at b2
      exact hf.2.1.trans b2

/-- Events of the loop of `ConfirmAll`: one progress event per record, numbered
from `i + 1`, and the completion event after the last one. -/
theorem confirmLoop_events (env : Env) (fuel total : Nat) (cs : List Ptr) (i : Nat)
    (s s2 : State) (hlen : i + cs.length = total)
    (h : confirmLoop env fuel total i cs s = .returned () s2) :
    s2.events = s.events ++ (List.range' (i + 1) cs.length).map (progressEvent total)
      ++ (if cs.length = 0 then [] else [progressEnd]) := by
  induction cs generalizing i s with
  | nil =>
    simp only [confirmLoop, Run.returned.injEq, true_and] at h
    simp [← h]
  | cons c cs ih =>
    have hf := confirmContract_frame env fuel s c
    unfold confirmLoop at h
    cases hcc : confirmContract env fuel s c with
    | running s1 => simp [hcc] at h
    | exited s1 => simp [hcc] at h
    | returned err s1 =>
      rw [hcc] at hf h
      simp only [Run.state] at hf
      simp only at h
      obtain ⟨_, _, _, _, a5⟩ := afterAttempt_fields total (i + 1) err s1
      have hlen2 : i + 1 + cs.length = total := by
        simp only [List.length_cons] at hlen
        omega
      rw [ih (i + 1) _ hlen2 h, a5, hf.2.2.1]
      by_cases hz : cs.length = 0
      · have hi : i + 1 = total := by omega
        simp [hz, hi, List.range'_succ]
      · have hi : ¬ i + 1 = total := by omega
        simp [hz, hi, List.range'_succ]

/-- Calls of the loop of `ConfirmAll`: for every record of the list, in order,
at least one `getaccountinfo` on its address. -/
theorem confirmLoop_calls (env : Env) (fuel total : Nat) (cs : List Ptr) (i : Nat)
    (s s2 : State) (h : confirmLoop env fuel total i cs s = .returned () s2) :
    ∃ ks : List Nat, ks.length = cs.length ∧ (∀ k ∈ ks, 1 ≤ k) ∧
      s2.rpcCalls = s.rpcCalls ++ (List.zipWith
        (fun c k => List.replicate k ("getaccountinfo", (s.heap c).Address)) cs ks).flatten := by
  induction cs generalizing i s with
  | nil =>
    simp only [confirmLoop, Run.returned.injEq, true_and] at h
    exact ⟨[], rfl, by simp, by simp [← h]⟩
  | cons c cs ih =>
    have hf := confirmContract_frame env fuel s c
    unfold confirmLoop at h
    cases hcc : confirmContract env fuel s c with
    | running s1 => simp [hcc] at h
    | exited s1 => simp [hcc] at h
    | returned err s1 =>
      rw [hcc] at hf h
      simp only [Run.state] at hf
      simp only at h
      obtain ⟨_, a2, a3, _, _⟩ := afterAttempt_fields total (i + 1) err s1
      obtain ⟨k, hk1, hk⟩ := confirmContractLoop_returned_calls env fuel s s1 c err
        (confirmContract_returned env fuel s s1 c err hcc)
      obtain ⟨ks, hl, hpos, hcalls⟩ := ih (i + 1) _ h
      refine ⟨k :: ks, by simp [hl], ?_, ?_⟩
      · intro x hx
        rcases List.mem_cons.1 hx with hx | hx
        · omega
        · exact hpos x hx
      · have haddr : ∀ p, ((updateProgress total (i + 1) (logError err s1)).heap p).Address
            = (s.heap p).Address := by
          intro p
          rw [a2]
          exact hf.2.1.address p
        rw [hcalls, a3, hk]
        simp [haddr, List.append_assoc]

/-- With a client at hand and under `TransientBounded env bound`, the loop of
`ConfirmAll` returns when every record is given `bound` iterations. -/
theorem confirmLoop_returns (env : Env) (bound total : Nat) (hrpc : env.rpcConfigured = true)
    (h : TransientBounded env bound) (cs : List Ptr) (i : Nat) (s : State) :
    (confirmLoop env bound total i cs s).isReturned = true := by
  induction cs generalizing i s with
  | nil => rfl
  | cons c cs ih =>
    have hr := confirmContractLoop_returns env bound h s c
    rw [← confirmContract_configured env bound s c hrpc] at hr
    unfold confirmLoop
    cases hcc : confirmContract env bound s c with
    | running s1 => simp [hcc, Run.isReturned] at hr
    | exited s1 => simp [hcc, Run.isReturned] at hr
    | returned err s1 => exact ih _ _

theorem ConfirmAll_def (env : Env) (fuel : Nat) (s : State) :
    ConfirmAll env fuel s
      = match confirmLoop env fuel (UnconfirmedContracts s).length 0 (UnconfirmedContracts s)
          (updateProgress (UnconfirmedContracts s).length 0 s) with
        | .running s1 => .running s1
        | .exited s1 => .exited s1
        | .returned _ s1 => .returned (Commit env s1).1 (Commit env s1).2 := rfl

/-- A run of `ConfirmAll` that returned is a run of its loop that returned,
followed by one `Commit`, whose result is the result of `ConfirmAll`. -/
theorem ConfirmAll_returned (env : Env) (fuel : Nat) (s : State)
    (h : (ConfirmAll env fuel s).isReturned = true) :
    ∃ s1, confirmLoop env fuel (UnconfirmedContracts s).length 0 (UnconfirmedContracts s)
        (updateProgress (UnconfirmedContracts s).length 0 s) = .returned () s1 ∧
      ConfirmAll env fuel s = .returned (Commit env s1).1 (Commit env s1).2 := by
  rw [ConfirmAll_def] at h ⊢
  cases hl : confirmLoop env fuel (UnconfirmedContracts s).length 0 (UnconfirmedContracts s)
      (updateProgress (UnconfirmedContracts s).length 0 s) with
  | running s1 => simp [hl, Run.isReturned] at h
  | exited s1 => simp [hl, Run.isReturned] at h
  | returned u s1 => exact ⟨s1, rfl, rfl⟩

/-- With a client at hand and under `TransientBounded env bound`, `ConfirmAll`
returns when every record is given `bound` iterations. -/
theorem ConfirmAll_returns (env : Env) (bound : Nat) (hrpc : env.rpcConfigured = true)
    (h : TransientBounded env bound) (s : State) :
    (ConfirmAll env bound s).isReturned = true := by
  have hr := confirmLoop_returns env bound (UnconfirmedContracts s).length hrpc h
    (UnconfirmedContracts s) 0 (updateProgress (UnconfirmedContracts s).length 0 s)
  rw [ConfirmAll_def]
  cases hl : confirmLoop env bound (UnconfirmedContracts s).length 0 (UnconfirmedContracts s)
      (updateProgress (UnconfirmedContracts s).length 0 s) with
  | running s1 => simp [hl, Run.isReturned] at hr
  | exited s1 => simp [hl, Run.isReturned] at hr
  | returned u s1 => rfl

/-- What `ConfirmAll` leaves alone, returned or not: the repository and every
field of every record but `Confirmed`, which it only ever sets. -/
theorem ConfirmAll_frame (env : Env) (fuel : Nat) (s : State) :
    (ConfirmAll env fuel s).state.repo = s.repo ∧
    HeapStep s.heap (ConfirmAll env fuel s).state.heap := by
  have hf := confirmLoop_frame env fuel (UnconfirmedContracts s).length
    (UnconfirmedContracts s) 0 (updateProgress (UnconfirmedContracts s).length 0 s)
  obtain ⟨a1, a2, _, _, _⟩ := updateProgress_fields (UnconfirmedContracts s).length 0 s
  rw [a1, a2] at hf
  rw [ConfirmAll_def]
  cases hl : confirmLoop env fuel (UnconfirmedContracts s).length 0 (UnconfirmedContracts s)
      (updateProgress (UnconfirmedContracts s).length 0 s) with
  | running s1 =>
    rw [hl] at hf
    exact ⟨hf.1, hf.2.1⟩
  | exited s1 =>
    rw [hl] at hf
    exact ⟨hf.1, hf.2.1⟩
  | returned u s1 =>
    rw [hl] at hf
    exact ⟨hf.1, hf.2.1⟩

/-- When every record of the list answers its one call with success, the loop
of `ConfirmAll` returns and every record of the list is confirmed. -/
theorem confirmLoop_all_succeed (env : Env) (fuel total : Nat)
    (hrpc : env.rpcConfigured = true) (hfuel : 1 ≤ fuel) (cs : List Ptr) (i : Nat) (s : State)
    (hok : ∀ j c, cs[j]? = some c →
      env.rpcCall (s.rpcCalls.length + j) "getaccountinfo" (s.heap c).Address = none) :
    ∃ s2, confirmLoop env fuel total i cs s = .returned () s2 ∧
      ∀ c ∈ cs, (s2.heap c).Confirmed = true := by
  obtain ⟨f, rfl⟩ : ∃ f, fuel = f + 1 := ⟨fuel - 1, by omega⟩
  induction cs generalizing i s with
  | nil => exact ⟨s, rfl, by simp⟩
  | cons c cs ih =>
    have h0 := hok 0 c (by simp)
    simp only [Nat.add_zero] at h0
    have hcc : confirmContract env (f + 1) s c
        = .returned none (markConfirmed (rpcCalled s c) c) := by
      rw [confirmContract_configured env (f + 1) s c hrpc, confirmContractLoop_succ, h0]
      rfl
    obtain ⟨_, a2, a3, _, _⟩ :=
      afterAttempt_fields total (i + 1) none (markConfirmed (rpcCalled s c) c)
    have hstep : HeapStep s.heap
        (updateProgress total (i + 1) (logError none (markConfirmed (rpcCalled s c) c))).heap := by
      rw [a2]
      exact HeapStep.update _ _
    have hok2 : ∀ j c2, cs[j]? = some c2 →
        env.rpcCall
          ((updateProgress total (i + 1)
            (logError none (markConfirmed (rpcCalled s c) c))).rpcCalls.length + j)
          "getaccountinfo"
          ((updateProgress total (i + 1)
            (logError none (markConfirmed (rpcCalled s c) c))).heap c2).Address = none := by
      intro j c2 hj
      have h1 := hok (j + 1) c2 (by simpa using hj)
      rw [hstep.address c2, a3]
      have hl : (markConfirmed (rpcCalled s c) c).rpcCalls.length + j
          = s.rpcCalls.length + (j + 1) := by
        simp [markConfirmed, rpcCalled]
        omega
      rw [hl]
      exact h1
    obtain ⟨s2, hs2, hall⟩ := ih (i + 1) _ hok2
    refine ⟨s2, ?_, ?_⟩
    · rw [confirmLoop, hcc]
      exact hs2
    · intro c2 hc2
      rcases List.mem_cons.1 hc2 with rfl | hc2
      · have hfr := confirmLoop_frame env (f + 1) total cs (i + 1)
          (updateProgress total (i + 1) (logError none (markConfirmed (rpcCalled s c2) c2)))
        rw [hs2] at hfr
        simp only [Run.state] at hfr
        have hc : ((updateProgress total (i + 1)
            (logError none (markConfirmed (rpcCalled s c2) c2))).heap c2).Confirmed = true := by
          rw [a2]
          simp [markConfirmed, rpcCalled]
        rw [hfr.2.1.confirmed c2 hc]
        exact hc
      · exact hall c2 hc2

/-- A step that keeps the ledger map and only sets `Confirmed` flags keeps a
confirmed record confirmed. -/
theorem confirmedAt_of_frame (s s2 : State) (name : String) (hrepo : s2.repo = s.repo)
    (hheap : HeapStep s.heap s2.heap) (h : confirmedAt s name = true) :
    confirmedAt s2 name = true := by
  unfold confirmedAt at h ⊢
  rw [hrepo]
  cases hg : mapGet s.repo.contracts name with
  | none => simp [hg] at h
  | some c =>
    simp only [hg] at h ⊢
    rw [hheap.confirmed c h]
    exact h

/-- One operation that is not a `Set` of an unconfirmed record under `name`
keeps the record under `name` confirmed. -/
theorem Op.run_keeps_confirmed (env : Env) (fuel : Nat) (name : String) (s : State) (op : Op)
    (hk : op.keeps name s = true) (h : confirmedAt s name = true) :
    confirmedAt (op.run env fuel s) name = true := by
  cases op with
  | set n c =>
    by_cases hn : n = name
    · subst hn
      have hc : (s.heap c).Confirmed = true := by simpa [Op.keeps] using hk
      simp [Op.run, Set, confirmedAt, mapGet_mapSet_same, hc]
    · have hn2 : name ≠ n := fun h2 => hn h2.symm
      simpa [Op.run, Set, confirmedAt, mapGet_mapSet_other _ _ _ _ hn2] using h
  | confirm n =>
    simp only [Op.run, Confirm]
    cases hg : mapGet s.repo.contracts n with
    | none => exact h
    | some c => exact confirmedAt_of_frame s _ name rfl (HeapStep.update _ _) h
  | confirmContract c =>
    have hf := confirmContract_frame env fuel s c
    exact confirmedAt_of_frame s _ name hf.1 hf.2.1 h
  | confirmAll =>
    have hf := ConfirmAll_frame env fuel s
    exact confirmedAt_of_frame s _ name hf.1 hf.2 h

/-! ## Set and Confirm -/

/-- C6: after `Set(name, c1)` followed by `Set(name, c2)` on a ledger, both
calls return nil, the record stored under `name` is the record `c2` points to,
with every field as the caller built it, `Exists(name)` is true, the ledger
holds exactly one entry for `name`, and every other name maps to what it
mapped to before. -/
theorem Set_twice_last_write_wins (s : State) (name : String) (c1 c2 : Ptr)
    (h : NodupKeys s.repo.contracts) :
    (Set s name c1).1 = none ∧
    (Set (Set s name c1).2 name c2).1 = none ∧
    (mapGet (Set (Set s name c1).2 name c2).2.repo.contracts name).map
        (Set (Set s name c1).2 name c2).2.heap = some (s.heap c2) ∧
    Exists (Set (Set s name c1).2 name c2).2 name = true ∧
    ((Set (Set s name c1).2 name c2).2.repo.contracts.map Prod.fst).count name = 1 ∧
    (∀ other, other ≠ name →
      (mapGet (Set (Set s name c1).2 name c2).2.repo.contracts other).map
          (Set (Set s name c1).2 name c2).2.heap
        = (mapGet s.repo.contracts other).map s.heap) := by
  have hnd : NodupKeys (mapSet (mapSet s.repo.contracts name c1) name c2) :=
    nodupKeys_mapSet _ _ _ (nodupKeys_mapSet _ _ _ h)
  have hmem : name ∈ (mapSet (mapSet s.repo.contracts name c1) name c2).map Prod.fst := by
    rw [mem_keys_mapSet]
    exact Or.inl rfl
  refine ⟨rfl, rfl, ?_, ?_, ?_, ?_⟩
  · simp [Set, mapGet_mapSet_same]
  · simp [Exists, Set, mapGet_mapSet_same]
  · exact List.count_eq_one_of_mem hnd hmem
  · intro other ho
    simp [Set, mapGet_mapSet_other _ _ _ _ ho]

/-- C7: `Confirm(name)` returns an error exactly when `name` is absent from the
ledger, and when it returns an error the whole state, the ledger and every
record included, is what it was. -/
theorem Confirm_error_iff_absent (s : State) (name : String) :
    ((Confirm s name).1.isSome = true ↔ name ∉ s.repo.contracts.map Prod.fst) ∧
    ((Confirm s name).1.isSome = true → (Confirm s name).2 = s) := by
  rw [← mapGet_eq_none_iff]
  unfold Confirm
  cases hg : mapGet s.repo.contracts name <;> simp

/-! ## Facts on sorting -/

theorem insertLeft_perm {α : Type} (less : α → α → Bool) (x : α) (pre : List α) :
    (insertLeft less x pre).Perm (x :: pre) := by
  induction pre with
  | nil => exact List.Perm.refl _
  | cons y pre ih =>
    unfold insertLeft
    by_cases h : less x y = true
    · simp only [h, if_true]
      exact ((List.Perm.cons y ih).trans (List.Perm.swap x y pre))
    · simp only [h]
      exact List.Perm.refl _

/-- Inserting into a prefix kept in descending order (it is stored reversed)
keeps it in descending order. -/
theorem insertLeft_descending (key : Ptr → Int) (x : Ptr) (pre : List Ptr)
    (h : pre.Pairwise (fun a b => key b ≤ key a)) :
    (insertLeft (fun a b => decide (key a < key b)) x pre).Pairwise
      (fun a b => key b ≤ key a) := by
  induction pre with
  | nil => simp [insertLeft]
  | cons y pre ih =>
    obtain ⟨hy, hpre⟩ := List.pairwise_cons.1 h
    unfold insertLeft
    by_cases hlt : key x < key y
    · simp only [hlt, decide_True, if_true]
      refine List.pairwise_cons.2 ⟨?_, ih hpre⟩
      intro b hb
      rcases List.mem_cons.1 ((insertLeft_perm _ x pre).mem_iff.1 hb) with rfl | hb
      · exact le_of_lt hlt
      · exact hy b hb
    · simp only [hlt, decide_False]
      refine List.pairwise_cons.2 ⟨?_, h⟩
      intro b hb
      rcases List.mem_cons.1 hb with rfl | hb
      · exact not_lt.1 hlt
      · exact le_trans (hy b hb) (not_lt.1 hlt)

theorem foldl_insertLeft (key : Ptr → Int) (l acc : List Ptr)
    (h : acc.Pairwise (fun a b => key b ≤ key a)) :
    (l.foldl (fun pre x => insertLeft (fun a b => decide (key a < key b)) x pre) acc).Perm
        (l ++ acc) ∧
    (l.foldl (fun pre x => insertLeft (fun a b => decide (key a < key b)) x pre) acc).Pairwise
        (fun a b => key b ≤ key a) := by
  induction l generalizing acc with
  | nil => exact ⟨List.Perm.refl _, h⟩
  | cons x l ih =>
    obtain ⟨p, q⟩ := ih (insertLeft (fun a b => decide (key a < key b)) x acc)
      (insertLeft_descending key x acc h)
    refine ⟨?_, q⟩
    refine p.trans (((insertLeft_perm _ x acc).append_left l).trans ?_)
    exact List.perm_middle

/-- The insertion sort of Go's `sort` package meets the contract of `sort.Slice`. -/
theorem insertionSort_spec : SortSliceSpec insertionSort := by
  intro key l
  obtain ⟨p, q⟩ := foldl_insertLeft key l [] List.Pairwise.nil
  refine ⟨?_, ?_⟩
  · unfold insertionSort
    exact (List.reverse_perm _).trans (by simpa using p)
  · unfold insertionSort
    exact List.pairwise_reverse.2 q

/-- The node of `exEnv` never answers twice in a row with the transient error. -/
theorem exEnv_bounded : TransientBounded exEnv 2 := by
  intro n addr
  match n with
  | 0 => exact ⟨1, by decide, fun e h => by cases h; rfl⟩
  | 1 => exact ⟨0, by decide, fun e h => by cases h; rfl⟩
  | 2 => exact ⟨1, by decide, fun e h => by cases h⟩
  | n + 3 => exact ⟨0, by decide, fun e h => by cases h⟩

/-! ## confirmContract -/

/-- C1 fails on the code: on the unconfirmed record `A`, with a client at hand
and a node whose answer to `getaccountinfo` is the error "connection refused",
which is not a `*jsonRPCError`, `confirmContract` returns nil after this one
call and the record is marked confirmed.  The branch `else if err != nil` reads
the `err` of the type assertion, which is nil there, so `return err` is never
reached. -/
theorem confirmContract_fatal_error_marks_confirmed :
    exEnvRefused.rpcConfigured = true ∧
    (exState.heap 0).Confirmed = false ∧
    exEnvRefused.rpcCall 0 "getaccountinfo" (exState.heap 0).Address
      = some ⟨false, "connection refused"⟩ ∧
    (confirmContract exEnvRefused 1 exState 0).value = some none ∧
    ((confirmContract exEnvRefused 1 exState 0).state.heap 0).Confirmed = true ∧
    (confirmContract exEnvRefused 1 exState 0).state.rpcCalls = [("getaccountinfo", [10])] := by
  decide

/-- C10: on an unconfirmed record, when the first `k` responses to
`getaccountinfo` are all the transient error, then after these `k` responses
`confirmContract` has not returned, the record is still unconfirmed, exactly
`k` calls were made, and the next iteration makes the call number `k + 1`.
This holds for every `k`, so a record whose query always returns the transient
error is never marked confirmed.  That `rpc.Call` answers at all says that
`solar.RPC()` handed out a client (`hrpc`). -/
theorem confirmContract_transient_retries (env : Env) (s : State) (c : Ptr) (k : Nat)
    (hrpc : env.rpcConfigured = true)
    (hc : (s.heap c).Confirmed = false) (ht : TransientFirst env s c k) :
    (confirmContract env k s c).isReturned = false ∧
    ((confirmContract env k s c).state.heap c).Confirmed = false ∧
    (confirmContract env k s c).state.rpcCalls
      = s.rpcCalls ++ List.replicate k ("getaccountinfo", (s.heap c).Address) ∧
    (confirmContract env (k + 1) s c).state.rpcCalls
      = s.rpcCalls ++ List.replicate (k + 1) ("getaccountinfo", (s.heap c).Address) := by
  obtain ⟨h1, h2, _⟩ := retried_fields env c k s
  have hrun : confirmContract env k s c = .running (retried env c k s) := by
    have := confirmContractLoop_retried env c k 0 s ht
    rw [confirmContract_configured env k s c hrpc]
    simpa [confirmContractLoop] using this
  refine ⟨by rw [hrun]; rfl, ?_, ?_, ?_⟩
  · rw [hrun]
    show ((retried env c k s).heap c).Confirmed = false
    rw [h1]
    exact hc
  · rw [hrun]
    exact h2
  · rw [confirmContract_configured env (k + 1) s c hrpc,
      confirmContractLoop_retried env c k 1 s ht, confirmContractLoop_one_call, h1, h2,
      List.append_assoc]
    congr 1
    exact (List.replicate_succ' _ _).symm

/-- Three transient answers: still running after three iterations, a fourth
call in the fourth. -/
theorem confirmContract_transient_retries_witness :
    (confirmContract exEnvTransient 3 exState 0).isReturned = false ∧
    ((confirmContract exEnvTransient 3 exState 0).state.heap 0).Confirmed = false ∧
    (confirmContract exEnvTransient 3 exState 0).state.rpcCalls
      = [("getaccountinfo", [10]), ("getaccountinfo", [10]), ("getaccountinfo", [10])] ∧
    (confirmContract exEnvTransient 4 exState 0).state.rpcCalls
      = [("getaccountinfo", [10]), ("getaccountinfo", [10]), ("getaccountinfo", [10]),
         ("getaccountinfo", [10])] :=
  confirmContract_transient_retries exEnvTransient exState 0 3 rfl rfl
    (fun _ _ => ⟨⟨true, "not found"⟩, rfl, rfl⟩)

/-- Two `Set` under the name `B` of the example ledger: the record of `C`
stands under `B` afterwards. -/
theorem Set_twice_last_write_wins_witness :
    (Set exState "B" 0).1 = none ∧
    (Set (Set exState "B" 0).2 "B" 2).1 = none ∧
    (mapGet (Set (Set exState "B" 0).2 "B" 2).2.repo.contracts "B").map
        (Set (Set exState "B" 0).2 "B" 2).2.heap = some (exRecord "C" 12 250 0 false) ∧
    Exists (Set (Set exState "B" 0).2 "B" 2).2 "B" = true ∧
    ((Set (Set exState "B" 0).2 "B" 2).2.repo.contracts.map Prod.fst).count "B" = 1 ∧
    (∀ other, other ≠ "B" →
      (mapGet (Set (Set exState "B" 0).2 "B" 2).2.repo.contracts other).map
          (Set (Set exState "B" 0).2 "B" 2).2.heap
        = (mapGet exState.repo.contracts other).map exState.heap) :=
  Set_twice_last_write_wins exState "B" 0 2 (by decide)

/-! ## ConfirmAll -/

/-- C3: a run of `ConfirmAll` that returns, on a ledger with `N` unconfirmed
records and whatever the outcome of each confirmation, has submitted to the
reporter the `N + 1` progress events "(i/N) Confirming contracts" for
`i = 0..N` in increasing order and then one completion event, and nothing
else; and `ConfirmAll` does return when `solar.RPC()` hands out a client and
the node never answers `fuel` times in a row with the transient error. -/
theorem ConfirmAll_progress_events (env : Env) (fuel : Nat) (s : State) :
    ((ConfirmAll env fuel s).isReturned = true →
      (ConfirmAll env fuel s).state.events
        = s.events
          ++ (List.range ((UnconfirmedContracts s).length + 1)).map
              (fun i => Event.eventProgress (progressInfo i (UnconfirmedContracts s).length))
          ++ [Event.eventProgressEnd "🚀  All contracts confirmed"]) ∧
    (env.rpcConfigured = true → TransientBounded env fuel →
      (ConfirmAll env fuel s).isReturned = true) := by
  refine ⟨fun h => ?_, fun hrpc hb => ConfirmAll_returns env fuel hrpc hb s⟩
  obtain ⟨s1, hloop, hall⟩ := ConfirmAll_returned env fuel s h
  have hev := confirmLoop_events env fuel (UnconfirmedContracts s).length
    (UnconfirmedContracts s) 0 _ s1 (by simp) hloop
  obtain ⟨_, _, _, _, a5⟩ := updateProgress_fields (UnconfirmedContracts s).length 0 s
  rw [hall]
  show s1.events = _
  rw [hev, a5, List.range_eq_range', List.range'_succ]
  have hfun : (fun i => Event.eventProgress (progressInfo i (UnconfirmedContracts s).length))
      = progressEvent (UnconfirmedContracts s).length := rfl
  rw [hfun]
  by_cases hz : (UnconfirmedContracts s).length = 0
  · simp [hz, progressEnd]
  · have hz2 : ¬ 0 = (UnconfirmedContracts s).length := fun h0 => hz h0.symm
    simp [hz, hz2, progressEnd]

/-- C4: a run of `ConfirmAll` that returns has attempted every record of the
unconfirmed snapshot, in order and whatever the earlier attempts returned (for
each record at least one `getaccountinfo` call on its address), has then called
`Commit` once, on the ledger as it is at the end, and has returned the result of
that `Commit`; and `ConfirmAll` does return when `solar.RPC()` hands out a
client and the node never answers `fuel` times in a row with the transient
error. -/
theorem ConfirmAll_commits_once (env : Env) (fuel : Nat) (s : State) :
    ((ConfirmAll env fuel s).isReturned = true →
      (∃ ks : List Nat, ks.length = (UnconfirmedContracts s).length ∧ (∀ k ∈ ks, 1 ≤ k) ∧
        (ConfirmAll env fuel s).state.rpcCalls = s.rpcCalls ++ (List.zipWith
          (fun c k => List.replicate k ("getaccountinfo", (s.heap c).Address))
          (UnconfirmedContracts s) ks).flatten) ∧
      (ConfirmAll env fuel s).state.commits = s.commits ++
        [⟨s.repo.filepath,
          s.repo.contracts.map (fun e => (e.1, (ConfirmAll env fuel s).state.heap e.2))⟩] ∧
      (ConfirmAll env fuel s).value = some (env.commit s.commits.length)) ∧
    (env.rpcConfigured = true → TransientBounded env fuel →
      (ConfirmAll env fuel s).isReturned = true) := by
  refine ⟨fun h => ?_, fun hrpc hb => ConfirmAll_returns env fuel hrpc hb s⟩
  obtain ⟨s1, hloop, hall⟩ := ConfirmAll_returned env fuel s h
  obtain ⟨ks, hl, hpos, hcalls⟩ := confirmLoop_calls env fuel (UnconfirmedContracts s).length
    (UnconfirmedContracts s) 0 _ s1 hloop
  have hfr := confirmLoop_frame env fuel (UnconfirmedContracts s).length
    (UnconfirmedContracts s) 0 (updateProgress (UnconfirmedContracts s).length 0 s)
  obtain ⟨a1, a2, a3, a4, _⟩ := updateProgress_fields (UnconfirmedContracts s).length 0 s
  rw [hloop] at hfr
  simp only [Run.state] at hfr
  rw [a1, a4] at hfr
  rw [a2, a3] at hcalls
  rw [hall]
  refine ⟨⟨ks, hl, hpos, hcalls⟩, ?_, ?_⟩
  · show s1.commits ++ [⟨s1.repo.filepath, s1.repo.contracts.map (fun e => (e.1, s1.heap e.2))⟩]
      = _
    rw [hfr.1, hfr.2.2]
    rfl
  · show some (env.commit s1.commits.length) = _
    rw [hfr.2.2]

/-- C2: when `getaccountinfo` succeeds on the first call for every unconfirmed
record (which says that `solar.RPC()` handed out a client, `hrpc`),
`ConfirmAll` returns, and afterwards every record that was unconfirmed
is confirmed (so every record of the ledger is), the ledger holds the same
names and pointers, every record that was already confirmed is unchanged, and
no record differs from what it was in a field other than `Confirmed`. -/
theorem ConfirmAll_all_succeed (env : Env) (fuel : Nat) (s : State)
    (hrpc : env.rpcConfigured = true) (hfuel : 1 ≤ fuel)
    (hok : ∀ j c, (UnconfirmedContracts s)[j]? = some c →
      env.rpcCall (s.rpcCalls.length + j) "getaccountinfo" (s.heap c).Address = none) :
    (ConfirmAll env fuel s).isReturned = true ∧
    (∀ c ∈ UnconfirmedContracts s, ((ConfirmAll env fuel s).state.heap c).Confirmed = true) ∧
    (∀ e ∈ s.repo.contracts, ((ConfirmAll env fuel s).state.heap e.2).Confirmed = true) ∧
    (ConfirmAll env fuel s).state.repo.contracts.map Prod.fst
      = s.repo.contracts.map Prod.fst ∧
    (ConfirmAll env fuel s).state.repo = s.repo ∧
    (∀ c, (s.heap c).Confirmed = true → (ConfirmAll env fuel s).state.heap c = s.heap c) ∧
    (∀ c, (ConfirmAll env fuel s).state.heap c
      = { s.heap c with Confirmed := ((ConfirmAll env fuel s).state.heap c).Confirmed }) := by
  obtain ⟨a1, a2, a3, _, _⟩ := updateProgress_fields (UnconfirmedContracts s).length 0 s
  obtain ⟨s1, hloop, hconf⟩ := confirmLoop_all_succeed env fuel (UnconfirmedContracts s).length
    hrpc hfuel (UnconfirmedContracts s) 0 (updateProgress (UnconfirmedContracts s).length 0 s)
    (by rw [a2, a3]; exact hok)
  have hrun : ConfirmAll env fuel s = .returned (Commit env s1).1 (Commit env s1).2 := by
    rw [ConfirmAll_def, hloop]
  obtain ⟨f1, f2⟩ := ConfirmAll_frame env fuel s
  have hunconf : ∀ c ∈ UnconfirmedContracts s,
      ((ConfirmAll env fuel s).state.heap c).Confirmed = true := by
    intro c hc
    rw [hrun]
    exact hconf c hc
  refine ⟨by rw [hrun]; rfl, hunconf, ?_, by rw [f1], f1, fun c hc => f2.confirmed c hc,
    fun c => f2.otherFields c⟩
  intro e he
  by_cases hc : (s.heap e.2).Confirmed = true
  · rw [f2.confirmed e.2 hc]
    exact hc
  · apply hunconf
    simp only [UnconfirmedContracts, List.mem_filter, List.mem_map]
    exact ⟨⟨e, he, rfl⟩, by simpa using hc⟩

/-- On the example ledger, with the node of `exEnv`: `ConfirmAll` returns after
the four events of a batch of two. -/
theorem ConfirmAll_progress_events_witness :
    (ConfirmAll exEnv 2 exState).isReturned = true ∧
    (ConfirmAll exEnv 2 exState).state.events
      = [Event.eventProgress "(0/2) Confirming contracts",
         Event.eventProgress "(1/2) Confirming contracts",
         Event.eventProgress "(2/2) Confirming contracts",
         Event.eventProgressEnd "🚀  All contracts confirmed"] :=
  ⟨(ConfirmAll_progress_events exEnv 2 exState).2 rfl exEnv_bounded,
   (ConfirmAll_progress_events exEnv 2 exState).1 rfl⟩

/-- On the example ledger, with the node of `exEnv`, whose second answer, to
`A`, is "connection refused": `C` is attempted all the same, there is one
commit, and the result is nil. -/
theorem ConfirmAll_commits_once_witness :
    (ConfirmAll exEnv 2 exState).isReturned = true ∧
    (ConfirmAll exEnv 2 exState).state.rpcCalls
      = [("getaccountinfo", [10]), ("getaccountinfo", [10]),
         ("getaccountinfo", [12]), ("getaccountinfo", [12])] ∧
    (ConfirmAll exEnv 2 exState).state.commits.length = 1 ∧
    (ConfirmAll exEnv 2 exState).state.commits = exState.commits ++
      [⟨exState.repo.filepath,
        exState.repo.contracts.map
          (fun e => (e.1, (ConfirmAll exEnv 2 exState).state.heap e.2))⟩] ∧
    (ConfirmAll exEnv 2 exState).value = some none :=
  ⟨(ConfirmAll_commits_once exEnv 2 exState).2 rfl exEnv_bounded, rfl, rfl,
   ((ConfirmAll_commits_once exEnv 2 exState).1 rfl).2.1,
   ((ConfirmAll_commits_once exEnv 2 exState).1 rfl).2.2⟩

/-- On the example ledger with a node that answers every call with success. -/
theorem ConfirmAll_all_succeed_witness :
    (ConfirmAll exEnvSuccess 1 exState).isReturned = true ∧
    (∀ c ∈ UnconfirmedContracts exState,
      ((ConfirmAll exEnvSuccess 1 exState).state.heap c).Confirmed = true) ∧
    (∀ e ∈ exState.repo.contracts,
      ((ConfirmAll exEnvSuccess 1 exState).state.heap e.2).Confirmed = true) ∧
    (ConfirmAll exEnvSuccess 1 exState).state.repo.contracts.map Prod.fst = ["A", "B", "C"] ∧
    (ConfirmAll exEnvSuccess 1 exState).state.repo = exState.repo ∧
    (∀ c, (exState.heap c).Confirmed = true →
      (ConfirmAll exEnvSuccess 1 exState).state.heap c = exState.heap c) ∧
    (∀ c, (ConfirmAll exEnvSuccess 1 exState).state.heap c
      = { exState.heap c with
          Confirmed := ((ConfirmAll exEnvSuccess 1 exState).state.heap c).Confirmed }) :=
  ConfirmAll_all_succeed exEnvSuccess 1 exState rfl (le_refl 1) (fun _ _ _ => rfl)

/-! ## SortedContracts -/

/-- C5, as stated, fails: with `A` and `B` created within the same second, `A`
0.8 s after `B`, and the map visited in the order `A, B, C`, `less` is false
both ways, the insertion sort swaps nothing, and `A` is returned before `B`. -/
theorem SortedContracts_subsecond_counterexample :
    SortedContracts insertionSort exState = [0, 1, 2] ∧
    (exState.heap 0).CreatedAt.After (exState.heap 1).CreatedAt = true ∧
    nonDecreasingCreatedAt exState.heap (SortedContracts insertionSort exState) = false := by
  decide

/-- C5, amended: `SortedContracts` returns the records of the ledger in
non-decreasing order of the whole seconds of `CreatedAt` (`CreatedAt.Unix()`):
the result holds exactly the pointers of the ledger, and the Unix second of
every element is at most that of every later element. -/
theorem SortedContracts_sorted_by_unix
    (sortSlice : (Ptr → Ptr → Bool) → List Ptr → List Ptr) (hs : SortSliceSpec sortSlice)
    (s : State) :
    (SortedContracts sortSlice s).Perm (s.repo.contracts.map Prod.snd) ∧
    (SortedContracts sortSlice s).Pairwise
      (fun a b => (s.heap a).CreatedAt.Unix ≤ (s.heap b).CreatedAt.Unix) :=
  hs (fun c => (s.heap c).CreatedAt.Unix) (s.repo.contracts.map Prod.snd)

/-- With the insertion sort, on the example ledger. -/
theorem SortedContracts_sorted_by_unix_witness :
    (SortedContracts insertionSort exState).Perm (exState.repo.contracts.map Prod.snd) ∧
    (SortedContracts insertionSort exState).Pairwise
      (fun a b => (exState.heap a).CreatedAt.Unix ≤ (exState.heap b).CreatedAt.Unix) :=
  SortedContracts_sorted_by_unix insertionSort insertionSort_spec exState

/-- C9, as stated, fails: the same ledger (same entries, same records) visited
in the order `A, B, C` and in the order `B, A, C` gives two different results,
because `A` and `B` have the same Unix second. -/
theorem SortedContracts_visit_order_counterexample :
    exState.repo.contracts.Perm exStateOtherVisit.repo.contracts ∧
    exState.heap = exStateOtherVisit.heap ∧
    SortedContracts insertionSort exState = [0, 1, 2] ∧
    SortedContracts insertionSort exStateOtherVisit = [1, 0, 2] ∧
    SortedContracts insertionSort exState ≠ SortedContracts insertionSort exStateOtherVisit :=
  ⟨List.Perm.swap _ _ _, rfl, by decide, by decide, by decide⟩

/-- C9, amended: on a ledger in which no two records have the same Unix second
of `CreatedAt`, the sequence that `SortedContracts` returns depends only on the
contents of the ledger, not on the order in which the map is visited. -/
theorem SortedContracts_deterministic_distinct_seconds
    (sortSlice : (Ptr → Ptr → Bool) → List Ptr → List Ptr) (hs : SortSliceSpec sortSlice)
    (s1 s2 : State) (hheap : s1.heap = s2.heap)
    (hperm : s1.repo.contracts.Perm s2.repo.contracts)
    (hdistinct : (s1.repo.contracts.map (fun e => (s1.heap e.2).CreatedAt.Unix)).Nodup) :
    SortedContracts sortSlice s1 = SortedContracts sortSlice s2 := by
  obtain ⟨p1, q1⟩ := hs (fun c => (s1.heap c).CreatedAt.Unix) (s1.repo.contracts.map Prod.snd)
  obtain ⟨p2, q2⟩ := hs (fun c => (s2.heap c).CreatedAt.Unix) (s2.repo.contracts.map Prod.snd)
  rw [← hheap] at p2 q2
  have hpp : (SortedContracts sortSlice s1).Perm (SortedContracts sortSlice s2) := by
    unfold SortedContracts lessCreatedAt
    rw [← hheap]
    exact p1.trans ((hperm.map Prod.snd).trans p2.symm)
  have hnd : ((s1.repo.contracts.map Prod.snd).map
      (fun c => (s1.heap c).CreatedAt.Unix)).Nodup := by
    simpa [List.map_map, Function.comp_def] using hdistinct
  have strict : ∀ l : List Ptr, l.Perm (s1.repo.contracts.map Prod.snd) →
      l.Pairwise (fun a b => (s1.heap a).CreatedAt.Unix ≤ (s1.heap b).CreatedAt.Unix) →
      l.Pairwise (fun a b => (s1.heap a).CreatedAt.Unix < (s1.heap b).CreatedAt.Unix) := by
    intro l hl hq
    have hn : (l.map (fun c => (s1.heap c).CreatedAt.Unix)).Nodup :=
      ((hl.map _).nodup_iff).2 hnd
    have hne := List.pairwise_map.1 hn
    exact (hq.and hne).imp (fun h => lt_of_le_of_ne h.1 h.2)
  have r1 := strict _ p1 q1
  have r2 := strict _ (p2.trans (hperm.map Prod.snd).symm) q2
  have anti : IsAntisymm Ptr
      (fun a b => (s1.heap a).CreatedAt.Unix < (s1.heap b).CreatedAt.Unix) :=
    ⟨fun a b h1 h2 => absurd (lt_trans h1 h2) (lt_irrefl _)⟩
  have r2b : (SortedContracts sortSlice s2).Pairwise
      (fun a b => (s1.heap a).CreatedAt.Unix < (s1.heap b).CreatedAt.Unix) := by
    unfold SortedContracts lessCreatedAt
    rw [← hheap]
    exact r2
  exact List.eq_of_perm_of_sorted hpp r1 r2b

/-- With the insertion sort, on the example ledger with `B` moved to the next
second, visited in two orders. -/
theorem SortedContracts_deterministic_distinct_seconds_witness :
    SortedContracts insertionSort exStateSpaced
      = SortedContracts insertionSort exStateSpacedOtherVisit :=
  SortedContracts_deterministic_distinct_seconds insertionSort insertionSort_spec
    exStateSpaced exStateSpacedOtherVisit rfl (List.Perm.swap _ _ _) (by decide)

/-! ## Monotonicity of Confirmed -/

/-- C8, as stated, fails for `Set`: `B` is confirmed, `Set("B", c)` with `c` the
unconfirmed record of `C` returns nil, and the record under `B` is unconfirmed
afterwards. -/
theorem Set_unconfirms_counterexample :
    confirmedAt exState "B" = true ∧
    (Set exState "B" 2).1 = none ∧
    confirmedAt (Set exState "B" 2).2 "B" = false := by
  decide

/-- C8, amended: over any sequence of `Set`, `Confirm`, `confirmContract` and
`ConfirmAll` in which no `Set` stores an unconfirmed record under `name`, a
record under `name` that is confirmed at the start is confirmed after every
operation of the sequence. -/
theorem Confirmed_monotone_without_overwrite (env : Env) (fuel : Nat) (name : String)
    (ops : List Op) (s : State) (hk : keepsAll env fuel name ops s = true)
    (h : confirmedAt s name = true) (n : Nat) :
    confirmedAt (runOps env fuel (ops.take n) s) name = true := by
  induction ops generalizing s n with
  | nil => simpa [runOps] using h
  | cons op ops ih =>
    cases n with
    | zero => simpa [runOps] using h
    | succ m =>
      simp only [keepsAll, Bool.and_eq_true] at hk
      simp only [List.take_succ_cons, runOps]
      exact ih _ hk.2 (Op.run_keeps_confirmed env fuel name s op hk.1 h) m

/-- On the example ledger: `B` stays confirmed through a `Set` under another
name, a `Confirm`, a `confirmContract` and a `ConfirmAll`. -/
theorem Confirmed_monotone_without_overwrite_witness :
    confirmedAt (runOps exEnv 2
      (List.take 4 [Op.set "D" 2, Op.confirm "A", Op.confirmContract 2, Op.confirmAll,
        Op.set "B" 1]) exState) "B" = true :=
  Confirmed_monotone_without_overwrite exEnv 2 "B"
    [Op.set "D" 2, Op.confirm "A", Op.confirmContract 2, Op.confirmAll, Op.set "B" 1]
    exState (by decide) (by decide) 4

end Solar
